import Mathlib

/-!
Shallow embedding of the two image-batch utilities of this repository:
`scripts/generate-icons.py` (the Icon Generator) and
`scripts/generate-thumbnails.py` (the Thumbnail Generator).

Images are modelled at two levels of detail:
* `ImgMeta` records a PIL color mode plus pixel dimensions; the geometric
  pipeline (mode conversion, crop box, resize) is translated at this level.
* `PixImg` records per-channel pixel functions; the white-background
  compositing of the Icon Generator (`Image.paste` with an alpha mask,
  from PIL's `Paste.c`) is translated at this level.

The filesystem the Thumbnail Generator walks is modelled as a finite tree
of named entries (`FSTree`), and the directory traversal of
`process_trail` / `main` as explicit recursion over entry lists, with
Python's `sorted` rendered as insertion sort on entry names and failures
(decode errors, `mkdir` on an existing file, `iterdir` on a file)
rendered in `Except`.
-/

namespace FCTrails

/-- PIL color modes relevant to the decoded inputs of both scripts:
`one` stands for PIL mode "1"; `I16` for "I"; the rest keep PIL's names. -/
inductive Mode where
  | one | L | LA | I16 | P | PA | RGB | RGBA | CMYK
  deriving DecidableEq, Repr

/-- Does a PIL mode carry an alpha channel? ("RGBA", "LA", "PA"). -/
def Mode.hasAlphaChannel : Mode → Bool
  | .RGBA | .LA | .PA => true
  | _ => false

/-- A decoded image at the metadata level: PIL mode and pixel size. -/
structure ImgMeta where
  mode : Mode
  width : Nat
  height : Nat
  deriving DecidableEq, Repr

/-- Constant `THUMBNAIL_SIZE = 160` in generate-thumbnails.py. -/
def THUMBNAIL_SIZE : Nat := 160

/-- Constant `JPEG_QUALITY = 85` in generate-thumbnails.py. -/
def JPEG_QUALITY : Nat := 85

/-- The mode test of generate-thumbnails.py line 18:
`img.mode in ('RGBA', 'P')`. -/
def needsConvert (m : Mode) : Bool := m = Mode.RGBA ∨ m = Mode.P

/-- Lines 18-19 of generate-thumbnails.py: `img = img.convert('RGB')`
when the mode is "RGBA" or "P", otherwise the image is left alone. -/
def convertImage (img : ImgMeta) : ImgMeta :=
  if needsConvert img.mode then ⟨Mode.RGB, img.width, img.height⟩ else img

/-- Lines 24-35 of generate-thumbnails.py: the center-square crop box
`(left, top, right, bottom)` for an image of pixel size `w × h`. -/
def cropBox (w h : Nat) : Nat × Nat × Nat × Nat :=
  if h < w then
    ((w - h) / 2, 0, (w - h) / 2 + h, h)
  else
    (0, (h - w) / 2, w, (h - w) / 2 + w)

/-- PIL `img.crop((left, top, right, bottom))`: the result has size
`(right - left) × (bottom - top)` and keeps the mode. -/
def cropImage (img : ImgMeta) (box : Nat × Nat × Nat × Nat) : ImgMeta :=
  ⟨img.mode, box.2.2.1 - box.1, box.2.2.2 - box.2.1⟩

/-- PIL `img.resize((w, h), LANCZOS)`: the result has exactly the
requested size and keeps the mode. -/
def resizeImage (img : ImgMeta) (w h : Nat) : ImgMeta :=
  ⟨img.mode, w, h⟩

/-- Function `create_square_thumbnail` of generate-thumbnails.py at the metadata
level: convert "RGBA"/"P" to "RGB", crop to the center square, resize to
`size × size` (the script always uses the default `size = 160`). -/
def create_square_thumbnail (img : ImgMeta) (size : Nat) : ImgMeta :=
  let converted := convertImage img
  resizeImage (cropImage converted (cropBox converted.width converted.height)) size size

/-- An image at the pixel level: dimensions, whether the buffer carries an
alpha band, and one channel function per band (out-of-range coordinates
are irrelevant to every statement below). -/
structure PixImg where
  width : Nat
  height : Nat
  hasAlpha : Bool
  r : Nat → Nat → Nat
  g : Nat → Nat → Nat
  b : Nat → Nat → Nat
  a : Nat → Nat → Nat

/-- PIL's `MULDIV255(a, b, tmp)` macro from Paste.c: the rounding
approximation of `x * y / 255` used when blending,
`tmp = x*y + 128; (tmp + (tmp >> 8)) >> 8`. -/
def muldiv255 (x y : Nat) : Nat :=
  let t := x * y + 128
  (t + t / 256) / 256

/-- PIL's `BLEND(mask, in1, in2, ...)` from Paste.c: blend destination
channel `d` and source channel `s` under mask value `mask`. -/
def blendChannel (mask d s : Nat) : Nat :=
  muldiv255 d (255 - mask) + muldiv255 s mask

/-- PIL `Image.new('RGB', (w, h), (255, 255, 255))`: an opaque white canvas
(the alpha band of an "RGB" image is the constant 255 filler PIL keeps
in the unused fourth band). -/
def whiteCanvas (w h : Nat) : PixImg :=
  ⟨w, h, false, fun _ _ => 255, fun _ _ => 255, fun _ _ => 255, fun _ _ => 255⟩

/-- PIL `dst.paste(src, (0, 0), src)` where `src` is an "RGBA" image: every
color channel of `dst` is blended with `src` under `src`'s alpha band
(Paste.c, `paste_mask_RGBA`); `dst`'s own alpha status and size are
unchanged. -/
def pasteAlphaMask (dst src : PixImg) : PixImg :=
  { width := dst.width, height := dst.height, hasAlpha := dst.hasAlpha,
    r := fun x y => blendChannel (src.a x y) (dst.r x y) (src.r x y),
    g := fun x y => blendChannel (src.a x y) (dst.g x y) (src.g x y),
    b := fun x y => blendChannel (src.a x y) (dst.b x y) (src.b x y),
    a := dst.a }

/-- Lines 31-38 and 44-48 of generate-icons.py at the pixel level: the
resized logo composited onto a fresh opaque white `s × s` canvas using
its own alpha channel as the paste mask. -/
def compositeOnWhite (s : Nat) (resized : PixImg) : PixImg :=
  pasteAlphaMask (whiteCanvas s s) resized

/-- PIL `img.convert('RGB')` applied to an "RGBA" image: the alpha band
is dropped and the color channels are copied unweighted (no compositing
against any background). -/
def dropAlpha (src : PixImg) : PixImg :=
  { width := src.width, height := src.height, hasAlpha := false,
    r := src.r, g := src.g, b := src.b, a := fun _ _ => 255 }

/-- Line 19-20 of generate-icons.py: `img.convert('RGBA')` unless the
mode already is "RGBA" (metadata level). -/
def convertToRGBA (img : ImgMeta) : ImgMeta :=
  if img.mode = Mode.RGBA then img else ⟨Mode.RGBA, img.width, img.height⟩

/-- PIL `Image.new('RGB', (w, h), (255, 255, 255))` at the metadata level. -/
def newRGB (w h : Nat) : ImgMeta := ⟨Mode.RGB, w, h⟩

/-- PIL `background.paste(resized, (0, 0), resized)` at the metadata level:
paste mutates the background in place, so the result has the
background's mode and size. -/
def pasteOnto (background _fg : ImgMeta) : ImgMeta := background

/-- Function `generate_icons` of generate-icons.py: the catalog of written output
files, each with the list of images encoded into it (`favicon.ico`
packages the three composited favicon images). -/
def generateIcons (logo : ImgMeta) : List (String × List ImgMeta) :=
  let img := convertToRGBA logo
  ([192, 512].map fun s => ("icon-" ++ toString s ++ ".png", [resizeImage img s s]))
  ++ [("apple-touch-icon.png", [pasteOnto (newRGB 180 180) (resizeImage img 180 180)])]
  ++ [("favicon.ico", [16, 32, 48].map fun s => pasteOnto (newRGB s s) (resizeImage img s s))]
  ++ [("favicon-32.png", [resizeImage img 32 32])]

/-- Contents of a regular file, as far as the scripts can observe them:
either bytes that decode to an image, or bytes that do not. -/
inductive Content where
  | image : ImgMeta → Content
  | blob : Content
  deriving DecidableEq, Repr

/-- A filesystem node: a regular file with contents, or a directory with
a finite list of named children (names are unique in a real directory). -/
inductive FSTree where
  | file : Content → FSTree
  | dir : List (String × FSTree) → FSTree

/-- Look a name up among a directory's entries. -/
def getEntry : List (String × FSTree) → String → Option FSTree
  | [], _ => none
  | (m, t) :: es, n => if m = n then some t else getEntry es n

/-- Create or overwrite the entry of a given name (models both
`mkdir` and writing an output file into a directory). -/
def setEntry : List (String × FSTree) → String → FSTree → List (String × FSTree)
  | [], n, t => [(n, t)]
  | (m, u) :: es, n, t => if m = n then (n, t) :: es else (m, u) :: setEntry es n t

/-- Code-point lexicographic comparison of character lists, the order
Python's `sorted` applies to sibling `Path`s. -/
def charsLe : List Char → List Char → Bool
  | [], _ => true
  | _ :: _, [] => false
  | c :: cs, d :: ds =>
    if c.toNat < d.toNat then true
    else if d.toNat < c.toNat then false
    else charsLe cs ds

/-- Code-point lexicographic comparison of names. -/
def nameLe (a b : String) : Bool := charsLe a.toList b.toList

/-- Insert one entry into a name-ordered entry list. -/
def insertEntry (e : String × FSTree) : List (String × FSTree) → List (String × FSTree)
  | [] => [e]
  | x :: xs => if nameLe e.1 x.1 then e :: x :: xs else x :: insertEntry e xs

/-- Python's `sorted(d.iterdir())`: the entries of a directory in
code-point lexicographic order of their names. -/
def sortEntries (es : List (String × FSTree)) : List (String × FSTree) :=
  es.foldr insertEntry []

/-- Index of the last '.' in a name, if any (`str.rfind('.')`). -/
def lastDotIdx (name : String) : Option Nat :=
  match name.toList.reverse.findIdx? (fun c => c = '.') with
  | none => none
  | some j => some (name.length - 1 - j)

/-- Property `PurePath.suffix` of pathlib: the final extension including its dot,
or `""` if the last dot is leading or trailing or absent. -/
def pySuffix (name : String) : String :=
  match lastDotIdx name with
  | none => ""
  | some i => if 0 < i ∧ i < name.length - 1 then String.mk (name.toList.drop i) else ""

/-- Property `PurePath.stem` of pathlib: the name with `pySuffix` removed. -/
def pyStem (name : String) : String :=
  match lastDotIdx name with
  | none => name
  | some i => if 0 < i ∧ i < name.length - 1 then String.mk (name.toList.take i) else name

/-- Python `str.lower()` on a name (ASCII range, which covers the
whitelist's extensions). -/
def strToLower (s : String) : String := String.mk (s.toList.map Char.toLower)

/-- Does `s` end with `t`? (what the glob pattern `*.jpg` tests). -/
def strEndsWith (s t : String) : Bool := List.isSuffixOf t.toList s.toList

/-- The extension whitelist of generate-thumbnails.py line 70. -/
def imageExts : List String := [".jpg", ".jpeg", ".png", ".webp"]

/-- The test of line 70: `img_file.suffix.lower() in ('.jpg', '.jpeg', '.png', '.webp')`. -/
def isImageFileName (n : String) : Bool := decide (strToLower (pySuffix n) ∈ imageExts)

/-- PIL `Image.open` on a regular file: decodes, or raises when the bytes
are not a readable image. -/
def decodeImage : Content → Except String ImgMeta
  | .image m => .ok m
  | .blob => .error "DecodeError"

/-- The thumbnail file written for a decoded source image `m`: the JPEG
encoding of `create_square_thumbnail` at the default size 160. -/
def thumbFile (m : ImgMeta) : FSTree :=
  .file (.image (create_square_thumbnail m THUMBNAIL_SIZE))

/-- The progress line printed for one processed image (line 77). -/
def thumbMsg (n : String) : String :=
  "  " ++ n ++ " -> thumbs/" ++ (pyStem n ++ ".jpg")

/-- Expression `len(list(thumbs_dir.glob('*.jpg')))` (line 80): the number of
entries of the thumbs directory whose name ends in ".jpg" (pathlib's
glob matches hidden names and directories too). -/
def countThumbJpg (es : List (String × FSTree)) : Nat :=
  (es.filter fun e => strEndsWith e.1 ".jpg").length

/-- The inner loop of `process_trail` (lines 65-78) over the waypoint's
sorted entries: directories are skipped, files failing the extension
test are skipped, and each remaining file is decoded (propagating
decode failures) and written as `<stem>.jpg` into the thumbs entries
accumulated in `thumbs`. -/
def processWaypointFiles (thumbs : List (String × FSTree)) (log : List String) :
    List (String × FSTree) → Except String (List (String × FSTree) × List String)
  | [] => .ok (thumbs, log)
  | (n, t) :: rest =>
    match t with
    | .dir _ => processWaypointFiles thumbs log rest
    | .file c =>
      if isImageFileName n then
        match decodeImage c with
        | .error e => .error e
        | .ok m =>
          processWaypointFiles (setEntry thumbs (pyStem n ++ ".jpg") (thumbFile m))
            (log ++ [thumbMsg n]) rest
      else processWaypointFiles thumbs log rest

/-- Call `thumbs_dir.mkdir(exist_ok=True)` (line 62): reuse an existing
thumbs directory, create an empty one, or raise `FileExistsError` when
a non-directory of that name is in the way. -/
def mkThumbsDir (wes : List (String × FSTree)) : Except String (List (String × FSTree)) :=
  match getEntry wes "thumbs" with
  | some (.dir ts) => .ok ts
  | some (.file _) => .error "FileExistsError"
  | none => .ok []

/-- The count line printed after a waypoint (line 80). -/
def countMsg (wname : String) (k : Nat) : String :=
  "Processed waypoint " ++ wname ++ ": " ++ toString k ++ " thumbnails"

/-- Processing of one waypoint directory (lines 60-80): ensure the
thumbs subdirectory, run the image loop over the waypoint's sorted
entries, and report the final `*.jpg` count of the thumbs directory. -/
def processWaypoint (wname : String) (wes : List (String × FSTree)) :
    Except String (List (String × FSTree) × List String) :=
  match mkThumbsDir wes with
  | .error e => .error e
  | .ok ts0 =>
    let wes1 := setEntry wes "thumbs" (.dir ts0)
    match processWaypointFiles ts0 [] (sortEntries wes1) with
    | .error e => .error e
    | .ok (ts1, flog) =>
      .ok (setEntry wes1 "thumbs" (.dir ts1),
           flog ++ [countMsg wname (countThumbJpg ts1)])

/-- The waypoint loop of `process_trail` (lines 56-58): iterate the
photos directory's entries, skipping every non-directory entry. -/
def processWaypointsList :
    List (String × FSTree) → Except String (List (String × FSTree) × List String)
  | [] => .ok ([], [])
  | (n, t) :: rest =>
    match t with
    | .file c =>
      match processWaypointsList rest with
      | .error e => .error e
      | .ok (es, log) => .ok ((n, .file c) :: es, log)
    | .dir wes =>
      match processWaypoint n wes with
      | .error e => .error e
      | .ok (wes2, wlog) =>
        match processWaypointsList rest with
        | .error e => .error e
        | .ok (es, log) => .ok ((n, .dir wes2) :: es, wlog ++ log)

/-- Function `process_trail` (lines 47-80): report and return unchanged when the
trail has no "photos" entry; raise `NotADirectoryError` when "photos"
exists but is a regular file (then `photos_dir.exists()` is true and
`iterdir` raises); otherwise process the sorted waypoint entries. -/
def processTrail (tname : String) (tes : List (String × FSTree)) :
    Except String (List (String × FSTree) × List String) :=
  match getEntry tes "photos" with
  | none => .ok (tes, ["No photos directory found at " ++ tname ++ "/photos"])
  | some (.file _) => .error "NotADirectoryError"
  | some (.dir pes) =>
    match processWaypointsList (sortEntries pes) with
    | .error e => .error e
    | .ok (pes2, plog) => .ok (setEntry tes "photos" (.dir pes2), plog)

/-- The trail loop of `main` (lines 93-98): iterate the trails root's
entries, skipping every non-directory entry, printing one header per
trail. -/
def processTrailsList :
    List (String × FSTree) → Except String (List (String × FSTree) × List String)
  | [] => .ok ([], [])
  | (n, t) :: rest =>
    match t with
    | .file c =>
      match processTrailsList rest with
      | .error e => .error e
      | .ok (es, log) => .ok ((n, .file c) :: es, log)
    | .dir tes =>
      match processTrail n tes with
      | .error e => .error e
      | .ok (tes2, tlog) =>
        match processTrailsList rest with
        | .error e => .error e
        | .ok (es, log) => .ok ((n, .dir tes2) :: es, ("Processing trail: " ++ n) :: tlog ++ log)

/-- Function `main` of generate-thumbnails.py (lines 83-100), acting on the
entries of the project root that contains the "trails" directory:
report and do nothing when "trails" is absent, raise
`NotADirectoryError` when it is a regular file, otherwise process every
trail in sorted order. -/
def mainRun (root : List (String × FSTree)) :
    Except String (List (String × FSTree) × List String) :=
  match getEntry root "trails" with
  | none => .ok (root, ["Trails directory not found"])
  | some (.file _) => .error "NotADirectoryError"
  | some (.dir ts) =>
    match processTrailsList (sortEntries ts) with
    | .error e => .error e
    | .ok (ts2, log) => .ok (setEntry root "trails" (.dir ts2), log ++ ["Done!"])

/-- Function `generate_icons` run against the project root's entries: `Image.open`
raises `FileNotFoundError` when `images/fcf-logo.png` is absent (the
Icon Generator has no guard), propagates decode failures, and otherwise
produces the icon catalog. -/
def generateIconsRun (root : List (String × FSTree)) :
    Except String (List (String × List ImgMeta)) :=
  match getEntry root "images" with
  | some (.dir ims) =>
    match getEntry ims "fcf-logo.png" with
    | some (.file c) =>
      match decodeImage c with
      | .error e => .error e
      | .ok m => .ok (generateIcons m)
    | some (.dir _) => .error "IsADirectoryError"
    | none => .error "FileNotFoundError"
  | some (.file _) => .error "NotADirectoryError"
  | none => .error "FileNotFoundError"

/-! Derived descriptions of the waypoint loop, used to state the
filtering, collision, and idempotence claims and proved equal to the
loop itself below. -/

/-- The selection the waypoint loop applies to one entry: kept iff it is
a regular file whose lowercased pathlib suffix is whitelisted. -/
def isImageEntry : String × FSTree → Option (String × Content)
  | (n, .file c) => if isImageFileName n then some (n, c) else none
  | (_, .dir _) => none

/-- The image files the waypoint loop selects, in list order. -/
def imageEntries (es : List (String × FSTree)) : List (String × Content) :=
  es.filterMap isImageEntry

/-- The waypoint loop restricted to its selected image files. -/
def processImages (thumbs : List (String × FSTree)) (log : List String) :
    List (String × Content) → Except String (List (String × FSTree) × List String)
  | [] => .ok (thumbs, log)
  | (n, c) :: rest =>
    match decodeImage c with
    | .error e => .error e
    | .ok m =>
      processImages (setEntry thumbs (pyStem n ++ ".jpg") (thumbFile m))
        (log ++ [thumbMsg n]) rest

/-- Do all selected files decode? -/
def allOk (es : List (String × Content)) : Bool :=
  es.all fun e => match e.2 with | .image _ => true | .blob => false

/-- The sequence of thumbnail writes `(output name, output file)` the
selected files produce when they all decode. -/
def thumbWrites (es : List (String × Content)) : List (String × FSTree) :=
  es.filterMap fun e =>
    match e.2 with
    | .image m => some (pyStem e.1 ++ ".jpg", thumbFile m)
    | .blob => none

/-- The progress lines the selected files produce. -/
def msgsOf (es : List (String × Content)) : List String :=
  es.map fun e => thumbMsg e.1

/-- Apply a sequence of named writes to a directory's entries. -/
def applyWrites (init : List (String × FSTree)) (ws : List (String × FSTree)) :
    List (String × FSTree) :=
  ws.foldl (fun acc w => setEntry acc w.1 w.2) init

/-- The last write of a given name in a write sequence: the write of a
later list element wins over any earlier write of the same name. -/
def lastWrite : List (String × FSTree) → String → Option FSTree
  | [], _ => none
  | w :: ws, k =>
    match lastWrite ws k with
    | some t => some t
    | none => if w.1 = k then some w.2 else none

/-- The names of a directory's entries, in list order. -/
def namesOf (es : List (String × FSTree)) : List String := es.map Prod.fst

/-- The existing thumbs entries of a waypoint (empty when absent). -/
def thumbs0 (wes : List (String × FSTree)) : List (String × FSTree) :=
  match getEntry wes "thumbs" with
  | some (.dir ts) => ts
  | _ => []

/-- The thumbnail writes a whole waypoint performs, in processing
order: its entries after thumbs creation, sorted, filtered, mapped. -/
def waypointWrites (wes : List (String × FSTree)) : List (String × FSTree) :=
  thumbWrites (imageEntries (sortEntries (setEntry wes "thumbs" (.dir (thumbs0 wes)))))

/-- The thumbs entries a waypoint ends up with. -/
def waypointResultThumbs (wes : List (String × FSTree)) : List (String × FSTree) :=
  applyWrites (thumbs0 wes) (waypointWrites wes)

/-! Claim theorems: geometry and pixel pipeline. -/

/-- C1: for every decoded input of width `w` and height `h`, the crop
box has `left = (w - h) / 2`, `top = 0`, box width `h` and full height
when `w > h`; otherwise `left = 0`, `top = (h - w) / 2`, full width and
box height `w`; and in both cases the side length is `min w h`. -/
theorem claim_C1_crop_box (w h : Nat) :
    (h < w →
      (cropBox w h).1 = (w - h) / 2 ∧ (cropBox w h).2.1 = 0 ∧
      (cropBox w h).2.2.1 - (cropBox w h).1 = h ∧ (cropBox w h).2.2.2 = h) ∧
    (¬ h < w →
      (cropBox w h).1 = 0 ∧ (cropBox w h).2.1 = (h - w) / 2 ∧
      (cropBox w h).2.2.1 = w ∧ (cropBox w h).2.2.2 - (cropBox w h).2.1 = w) ∧
    (cropBox w h).2.2.1 - (cropBox w h).1 = min w h ∧
    (cropBox w h).2.2.2 - (cropBox w h).2.1 = min w h := by
  by_cases hlt : h < w <;> simp [cropBox, hlt] <;> omega

theorem claim_C1_crop_box_witness :
    (cropBox 5 3).1 = 1 ∧ (cropBox 3 5).2.1 = 1 ∧
    (cropBox 5 3).2.2.1 - (cropBox 5 3).1 = min 5 3 :=
  ⟨((claim_C1_crop_box 5 3).1 (by decide)).1,
   (((claim_C1_crop_box 3 5).2.1 (by decide)).2.1),
   ((claim_C1_crop_box 5 3).2.2).1⟩

/-- C3: for positive non-square inputs the crop box has side exactly
`min w h`, lies fully inside the image, and its left/right and
top/bottom margins differ by at most one pixel. -/
theorem claim_C3_crop_box_safe (w h l t r b : Nat) (hw : 0 < w) (hh : 0 < h)
    (hne : w ≠ h) (hbox : cropBox w h = (l, t, r, b)) :
    r - l = min w h ∧ b - t = min w h ∧
    l + min w h ≤ w ∧ t + min w h ≤ h ∧ r ≤ w ∧ b ≤ h ∧
    w - r ≤ l + 1 ∧ l ≤ (w - r) + 1 ∧ h - b ≤ t + 1 ∧ t ≤ (h - b) + 1 := by
  by_cases hlt : h < w <;> simp [cropBox, hlt, Prod.ext_iff] at hbox <;> omega

theorem claim_C3_crop_box_safe_witness :
    (250 : Nat) - 50 = min 300 200 ∧ (200 : Nat) - 0 = min 300 200 ∧
    50 + min 300 200 ≤ 300 ∧ 0 + min 300 200 ≤ 200 ∧ 250 ≤ 300 ∧ 200 ≤ 200 ∧
    300 - 250 ≤ 50 + 1 ∧ 50 ≤ (300 - 250) + 1 ∧ 200 - 200 ≤ 0 + 1 ∧ 0 ≤ (200 - 200) + 1 :=
  claim_C3_crop_box_safe 300 200 50 0 250 200 (by decide) (by decide) (by decide) (by decide)

/-- C4: every produced output is square at its target size: the Icon
Generator's catalog carries exactly the sizes 192, 512, 180, 16/32/48
(inside favicon.ico) and 32, and every thumbnail is exactly 160 by 160
whatever the input dimensions. -/
theorem claim_C4_outputs_square (logo img : ImgMeta) :
    ((generateIcons logo).map fun o => (o.1, o.2.map fun i => (i.width, i.height))) =
      [("icon-192.png", [(192, 192)]), ("icon-512.png", [(512, 512)]),
       ("apple-touch-icon.png", [(180, 180)]),
       ("favicon.ico", [(16, 16), (32, 32), (48, 48)]),
       ("favicon-32.png", [(32, 32)])] ∧
    (create_square_thumbnail img THUMBNAIL_SIZE).width = 160 ∧
    (create_square_thumbnail img THUMBNAIL_SIZE).height = 160 :=
  ⟨rfl, rfl, rfl⟩

/-- C5: compositing the resized logo onto a fresh white canvas with its
own alpha as the paste mask yields an image without an alpha channel,
of the canvas size, whose pixels are pure white wherever the source
alpha is zero. -/
theorem claim_C5_white_composite (resized : PixImg) (s x y : Nat)
    (ha : resized.a x y = 0) :
    (compositeOnWhite s resized).hasAlpha = false ∧
    (compositeOnWhite s resized).width = s ∧
    (compositeOnWhite s resized).height = s ∧
    (compositeOnWhite s resized).r x y = 255 ∧
    (compositeOnWhite s resized).g x y = 255 ∧
    (compositeOnWhite s resized).b x y = 255 := by
  simp [compositeOnWhite, pasteAlphaMask, whiteCanvas, blendChannel, muldiv255, ha]

theorem claim_C5_white_composite_witness :
    (compositeOnWhite 180 ⟨180, 180, true, fun _ _ => 7, fun _ _ => 8, fun _ _ => 9,
        fun _ _ => 0⟩).r 0 0 = 255 :=
  (claim_C5_white_composite _ 180 0 0 rfl).2.2.2.1

/-- C2 fails on the code: a grayscale-plus-alpha image (PIL mode "LA",
as decoded from a grayscale PNG with an alpha channel) has a color mode
that includes an alpha channel, yet `create_square_thumbnail` leaves it
unconverted because line 18 only tests for "RGBA" and "P". -/
theorem claim_C2_counterexample :
    Mode.hasAlphaChannel Mode.LA = true ∧
    (create_square_thumbnail ⟨Mode.LA, 300, 200⟩ THUMBNAIL_SIZE).mode ≠ Mode.RGB := by
  decide

/-- C2 (amended): an input whose mode is exactly "RGBA" or "P" is
converted to opaque RGB before the crop and resize; any other mode is
left untouched; and the RGBA-to-RGB conversion drops the alpha band
while copying the color channels unweighted (no compositing). -/
theorem claim_C2_amended (img : ImgMeta) (src : PixImg) (x y : Nat) :
    ((img.mode = Mode.RGBA ∨ img.mode = Mode.P) →
      convertImage img = ⟨Mode.RGB, img.width, img.height⟩ ∧
      (create_square_thumbnail img THUMBNAIL_SIZE).mode = Mode.RGB) ∧
    (img.mode ≠ Mode.RGBA → img.mode ≠ Mode.P → convertImage img = img) ∧
    (dropAlpha src).hasAlpha = false ∧
    (dropAlpha src).r x y = src.r x y ∧
    (dropAlpha src).g x y = src.g x y ∧
    (dropAlpha src).b x y = src.b x y := by
  refine ⟨fun hm => ?_, fun h1 h2 => ?_, rfl, rfl, rfl, rfl⟩
  · constructor
    · simp [convertImage, needsConvert, hm]
    · simp [create_square_thumbnail, resizeImage, cropImage, convertImage, needsConvert, hm]
  · simp [convertImage, needsConvert, h1, h2]

theorem claim_C2_amended_witness :
    convertImage ⟨Mode.RGBA, 30, 20⟩ = ⟨Mode.RGB, 30, 20⟩ ∧
    convertImage ⟨Mode.L, 30, 20⟩ = ⟨Mode.L, 30, 20⟩ :=
  ⟨((claim_C2_amended ⟨Mode.RGBA, 30, 20⟩ (whiteCanvas 1 1) 0 0).1 (Or.inl rfl)).1,
   (claim_C2_amended ⟨Mode.L, 30, 20⟩ (whiteCanvas 1 1) 0 0).2.1 (by decide) (by decide)⟩

/-! Helper lemmas about directory entries and the waypoint loop. -/

theorem getEntry_setEntry (es : List (String × FSTree)) (n : String) (t : FSTree)
    (m : String) :
    getEntry (setEntry es n t) m = if n = m then some t else getEntry es m := by
  induction es with
  | nil => simp [setEntry, getEntry]
  | cons e es ih =>
    obtain ⟨a, u⟩ := e
    by_cases han : a = n
    · subst han
      by_cases ham : a = m <;> simp [setEntry, getEntry, ham]
    · by_cases ham : a = m
      · subst ham
        simp [setEntry, getEntry, han, Ne.symm han]
      · simp [setEntry, getEntry, han, ham, ih]

theorem setEntry_setEntry (es : List (String × FSTree)) (n : String) (t u : FSTree) :
    setEntry (setEntry es n t) n u = setEntry es n u := by
  induction es with
  | nil => simp [setEntry]
  | cons e es ih =>
    obtain ⟨a, v⟩ := e
    by_cases han : a = n <;> simp [setEntry, han, ih]

theorem mkThumbsDir_ok (wes : List (String × FSTree)) (ts : List (String × FSTree))
    (h : mkThumbsDir wes = .ok ts) : ts = thumbs0 wes := by
  unfold mkThumbsDir at h
  unfold thumbs0
  cases hg : getEntry wes "thumbs" with
  | none => simp [hg] at h; simp [h]
  | some t =>
    cases t with
    | file c => simp [hg] at h
    | dir d => simp [hg] at h; simp [h]

theorem processWaypointFiles_eq_processImages (es : List (String × FSTree))
    (thumbs : List (String × FSTree)) (log : List String) :
    processWaypointFiles thumbs log es = processImages thumbs log (imageEntries es) := by
  induction es generalizing thumbs log with
  | nil => rfl
  | cons e rest ih =>
    obtain ⟨n, t⟩ := e
    cases t with
    | dir d => simpa [processWaypointFiles, imageEntries, isImageEntry] using ih thumbs log
    | file c =>
      by_cases hn : isImageFileName n
      · cases c with
        | blob =>
          simp [processWaypointFiles, imageEntries, isImageEntry, hn, processImages, decodeImage]
        | image m =>
          simp only [processWaypointFiles, imageEntries, List.filterMap_cons, isImageEntry, hn,
            if_pos, processImages, decodeImage]
          exact ih _ _
      · simpa [processWaypointFiles, imageEntries, isImageEntry, hn] using ih thumbs log

theorem processImages_eq_of_allOk (es : List (String × Content))
    (thumbs : List (String × FSTree)) (log : List String) (h : allOk es = true) :
    processImages thumbs log es =
      .ok (applyWrites thumbs (thumbWrites es), log ++ msgsOf es) := by
  induction es generalizing thumbs log with
  | nil => simp [processImages, applyWrites, msgsOf, thumbWrites]
  | cons e rest ih =>
    obtain ⟨n, c⟩ := e
    cases c with
    | blob => simp [allOk] at h
    | image m =>
      have hrest : allOk rest = true := by simpa [allOk] using h
      simp only [processImages, decodeImage, ih _ _ hrest, thumbWrites, List.filterMap_cons,
        applyWrites, msgsOf, List.map_cons, List.foldl_cons]
      simp [List.append_assoc]

theorem allOk_of_processImages_ok (es : List (String × Content))
    (thumbs : List (String × FSTree)) (log : List String)
    (p : List (String × FSTree) × List String)
    (h : processImages thumbs log es = .ok p) : allOk es = true := by
  induction es generalizing thumbs log with
  | nil => simp [allOk]
  | cons e rest ih =>
    obtain ⟨n, c⟩ := e
    cases c with
    | blob => simp [processImages, decodeImage] at h
    | image m =>
      simp only [processImages, decodeImage] at h
      simpa [allOk] using ih _ _ h

theorem getEntry_applyWrites (ws : List (String × FSTree))
    (init : List (String × FSTree)) (k : String) :
    getEntry (applyWrites init ws) k =
      match lastWrite ws k with
      | some t => some t
      | none => getEntry init k := by
  induction ws generalizing init with
  | nil => rfl
  | cons w ws ih =>
    simp only [applyWrites, List.foldl_cons, lastWrite]
    rw [show List.foldl (fun acc w => setEntry acc w.1 w.2) (setEntry init w.1 w.2) ws =
      applyWrites (setEntry init w.1 w.2) ws from rfl, ih]
    cases lastWrite ws k with
    | some t => simp
    | none =>
      rw [getEntry_setEntry]
      by_cases hw : w.1 = k <;> simp [hw]

theorem processWaypoint_ok (wname : String) (wes wes2 : List (String × FSTree))
    (log : List String) (h : processWaypoint wname wes = .ok (wes2, log)) :
    wes2 = setEntry (setEntry wes "thumbs" (.dir (thumbs0 wes))) "thumbs"
        (.dir (waypointResultThumbs wes)) ∧
    log = msgsOf (imageEntries (sortEntries (setEntry wes "thumbs" (.dir (thumbs0 wes)))))
        ++ [countMsg wname (countThumbJpg (waypointResultThumbs wes))] ∧
    allOk (imageEntries (sortEntries (setEntry wes "thumbs" (.dir (thumbs0 wes))))) = true := by
  unfold processWaypoint at h
  cases hmk : mkThumbsDir wes with
  | error e => simp [hmk] at h
  | ok ts0 =>
    have hts0 : ts0 = thumbs0 wes := mkThumbsDir_ok wes ts0 hmk
    simp only [hmk] at h
    cases hf : processWaypointFiles ts0 [] (sortEntries (setEntry wes "thumbs" (.dir ts0))) with
    | error e => simp [hf] at h
    | ok p =>
      obtain ⟨ts1, flog⟩ := p
      rw [hf] at h
      simp only [Except.ok.injEq, Prod.mk.injEq] at h
      obtain ⟨hwes2, hlog⟩ := h
      rw [processWaypointFiles_eq_processImages] at hf
      have hall := allOk_of_processImages_ok _ _ _ _ hf
      rw [processImages_eq_of_allOk _ _ _ hall] at hf
      simp only [Except.ok.injEq, Prod.mk.injEq, List.nil_append] at hf
      obtain ⟨hts1, hflog⟩ := hf
      subst hts0
      refine ⟨?_, ?_, hall⟩
      · rw [← hwes2, ← hts1]
        rfl
      · rw [← hlog, ← hflog, ← hts1]
        rfl

/-- C6: an entry of a waypoint directory is selected for thumbnail
processing iff it is a regular file whose pathlib suffix, lowercased,
is one of ".jpg", ".jpeg", ".png", ".webp"; and the waypoint loop
factors through that selection, so every other entry (directories
included) contributes nothing and is never recursed into. -/
theorem claim_C6_image_filter :
    (∀ (n : String) (t : FSTree),
      (isImageEntry (n, t)).isSome = true ↔
        ((∃ c, t = FSTree.file c) ∧ strToLower (pySuffix n) ∈ imageExts)) ∧
    (∀ (thumbs : List (String × FSTree)) (log : List String)
        (es : List (String × FSTree)),
      processWaypointFiles thumbs log es = processImages thumbs log (imageEntries es)) := by
  constructor
  · intro n t
    cases t with
    | dir d => simp [isImageEntry]
    | file c =>
      by_cases hn : strToLower (pySuffix n) ∈ imageExts <;>
        simp [isImageEntry, isImageFileName, hn]
  · intro thumbs log es
    exact processWaypointFiles_eq_processImages es thumbs log

/-- C8: in the ok case the waypoint's thumbs directory holds exactly
the initial thumbs entries overridden by the loop's writes, each write
named `stem + ".jpg"`, and for every output name the surviving content
is the one of the last write of that name in the sorted processing
order (so same-stem inputs of different extensions collide and the
lexicographically last one wins). -/
theorem claim_C8_stem_collision (wname : String)
    (wes wes2 : List (String × FSTree)) (log : List String)
    (h : processWaypoint wname wes = .ok (wes2, log)) :
    getEntry wes2 "thumbs" = some (.dir (waypointResultThumbs wes)) ∧
    (∀ k, getEntry (waypointResultThumbs wes) k =
      match lastWrite (waypointWrites wes) k with
      | some t => some t
      | none => getEntry (thumbs0 wes) k) ∧
    (∀ e ∈ waypointWrites wes,
      ∃ n m, e = (pyStem n ++ ".jpg", thumbFile m)) := by
  obtain ⟨hwes2, -⟩ := processWaypoint_ok wname wes wes2 log h
  refine ⟨?_, ?_, ?_⟩
  · rw [hwes2, getEntry_setEntry]
    simp
  · intro k
    exact getEntry_applyWrites _ _ k
  · intro e he
    unfold waypointWrites thumbWrites at he
    simp only [List.mem_filterMap] at he
    obtain ⟨⟨n, c⟩, -, hc⟩ := he
    cases c with
    | blob => simp at hc
    | image m =>
      simp only [Option.some.injEq] at hc
      exact ⟨n, m, hc.symm⟩

/-- A waypoint with two same-stem inputs, `img.JPG` (a CMYK JPEG) and
`img.png` (an RGBA PNG), as in the specification's collision scenario. -/
def wesC8 : List (String × FSTree) :=
  [("img.JPG", .file (.image ⟨Mode.CMYK, 300, 200⟩)),
   ("img.png", .file (.image ⟨Mode.RGBA, 300, 200⟩))]

/-- The waypoint entries `wesC8` produces. -/
def wesC8out : List (String × FSTree) :=
  [("img.JPG", .file (.image ⟨Mode.CMYK, 300, 200⟩)),
   ("img.png", .file (.image ⟨Mode.RGBA, 300, 200⟩)),
   ("thumbs", .dir [("img.jpg", .file (.image ⟨Mode.RGB, 160, 160⟩))])]

theorem claim_C8_stem_collision_witness :
    getEntry wesC8out "thumbs" = some (.dir (waypointResultThumbs wesC8)) ∧
    getEntry (waypointResultThumbs wesC8) "img.jpg" =
      (match lastWrite (waypointWrites wesC8) "img.jpg" with
       | some t => some t
       | none => getEntry (thumbs0 wesC8) "img.jpg") ∧
    getEntry (waypointResultThumbs wesC8) "img.jpg" =
      some (thumbFile ⟨Mode.RGBA, 300, 200⟩) :=
  have h := claim_C8_stem_collision "W1" wesC8 wesC8out
    ["  img.JPG -> thumbs/img.jpg", "  img.png -> thumbs/img.jpg",
     "Processed waypoint W1: 1 thumbnails"] rfl
  ⟨h.1, h.2.1 "img.jpg", rfl⟩

/-- C7: a missing trails root makes `main` print its message, leave the
filesystem untouched and return without error; any error arising while
trails are processed propagates out of `main` uncaught; and the Icon
Generator has no guard at all, erroring on a missing input. -/
theorem claim_C7_missing_root (root ts : List (String × FSTree)) (e : String) :
    (getEntry root "trails" = none →
      mainRun root = .ok (root, ["Trails directory not found"])) ∧
    (getEntry root "trails" = some (.dir ts) →
      processTrailsList (sortEntries ts) = .error e → mainRun root = .error e) ∧
    (getEntry root "images" = none →
      generateIconsRun root = .error "FileNotFoundError") := by
  refine ⟨fun h => ?_, fun h1 h2 => ?_, fun h => ?_⟩ <;>
    simp [mainRun, generateIconsRun, *]

/-- A trails tree holding a single undecodable `bad.jpg`. -/
def tsC7 : List (String × FSTree) :=
  [("t1", .dir [("photos", .dir [("w1", .dir [("bad.jpg", .file .blob)])])])]

/-- A project root whose only trail contains the undecodable image. -/
def rootC7 : List (String × FSTree) := [("trails", .dir tsC7)]

theorem claim_C7_missing_root_witness :
    mainRun [] = .ok ([], ["Trails directory not found"]) ∧
    mainRun rootC7 = .error "DecodeError" ∧
    generateIconsRun [] = .error "FileNotFoundError" :=
  ⟨(claim_C7_missing_root [] [] "e").1 rfl,
   (claim_C7_missing_root rootC7 tsC7 "DecodeError").2.1 rfl rfl,
   (claim_C7_missing_root [] [] "e").2.2 rfl⟩

theorem processWaypointsList_file_skip (n : String) (c : Content)
    (es₂ : List (String × FSTree)) :
    ∀ es₁, processWaypointsList (es₁ ++ (n, .file c) :: es₂) =
      (processWaypointsList (es₁ ++ es₂)).map
        (fun r => (r.1.take es₁.length ++ (n, FSTree.file c) :: r.1.drop es₁.length, r.2)) := by
  intro es₁
  induction es₁ with
  | nil =>
    simp only [List.nil_append, List.length_nil, List.take_zero, List.drop_zero]
    cases h : processWaypointsList es₂ with
    | error e => simp [processWaypointsList, h, Except.map]
    | ok p => simp [processWaypointsList, h, Except.map]
  | cons e es₁ ih =>
    obtain ⟨m, t⟩ := e
    cases t with
    | file c' =>
      simp only [List.cons_append, processWaypointsList, List.append_eq]
      rw [ih]
      cases h : processWaypointsList (es₁ ++ es₂) with
      | error e' => simp [Except.map]
      | ok p => simp [Except.map, List.length_cons, List.take_succ_cons, List.drop_succ_cons]
    | dir wes =>
      simp only [List.cons_append, processWaypointsList, List.append_eq]
      cases hw : processWaypoint m wes with
      | error e' => simp [Except.map]
      | ok q =>
        rw [ih]
        cases h : processWaypointsList (es₁ ++ es₂) with
        | error e' => simp [Except.map]
        | ok p => simp [Except.map, List.length_cons, List.take_succ_cons, List.drop_succ_cons]

theorem processTrailsList_file_skip (n : String) (c : Content)
    (es₂ : List (String × FSTree)) :
    ∀ es₁, processTrailsList (es₁ ++ (n, .file c) :: es₂) =
      (processTrailsList (es₁ ++ es₂)).map
        (fun r => (r.1.take es₁.length ++ (n, FSTree.file c) :: r.1.drop es₁.length, r.2)) := by
  intro es₁
  induction es₁ with
  | nil =>
    simp only [List.nil_append, List.length_nil, List.take_zero, List.drop_zero]
    cases h : processTrailsList es₂ with
    | error e => simp [processTrailsList, h, Except.map]
    | ok p => simp [processTrailsList, h, Except.map]
  | cons e es₁ ih =>
    obtain ⟨m, t⟩ := e
    cases t with
    | file c' =>
      simp only [List.cons_append, processTrailsList, List.append_eq]
      rw [ih]
      cases h : processTrailsList (es₁ ++ es₂) with
      | error e' => simp [Except.map]
      | ok p => simp [Except.map, List.length_cons, List.take_succ_cons, List.drop_succ_cons]
    | dir tes =>
      simp only [List.cons_append, processTrailsList, List.append_eq]
      cases ht : processTrail m tes with
      | error e' => simp [Except.map]
      | ok q =>
        rw [ih]
        cases h : processTrailsList (es₁ ++ es₂) with
        | error e' => simp [Except.map]
        | ok p => simp [Except.map, List.length_cons, List.take_succ_cons, List.drop_succ_cons]

/-- C10: a regular file sitting directly among the trails root's entries
or directly among a photos directory's entries changes nothing: the run
behaves exactly as without it (same log, same outcome, every other
entry processed the same) and the file itself passes through untouched
in place. -/
theorem claim_C10_nondir_entries_skipped (n : String) (c : Content)
    (es₁ es₂ : List (String × FSTree)) :
    processTrailsList (es₁ ++ (n, .file c) :: es₂) =
      (processTrailsList (es₁ ++ es₂)).map
        (fun r => (r.1.take es₁.length ++ (n, FSTree.file c) :: r.1.drop es₁.length, r.2)) ∧
    processWaypointsList (es₁ ++ (n, .file c) :: es₂) =
      (processWaypointsList (es₁ ++ es₂)).map
        (fun r => (r.1.take es₁.length ++ (n, FSTree.file c) :: r.1.drop es₁.length, r.2)) :=
  ⟨processTrailsList_file_skip n c es₂ es₁, processWaypointsList_file_skip n c es₂ es₁⟩

/-! Machinery for the re-run (idempotence) claim: two directory listings
that agree on names and on every regular file, differing only in the
contents of directories, drive the waypoint loop identically. -/

/-- Is a node a directory? -/
def IsDirT (t : FSTree) : Prop := ∃ x, t = FSTree.dir x

/-- Two entries with the same name that are either identical or both
directories. -/
def EntryRel (a b : String × FSTree) : Prop :=
  a.1 = b.1 ∧ (a.2 = b.2 ∨ (IsDirT a.2 ∧ IsDirT b.2))

theorem entryRel_refl (a : String × FSTree) : EntryRel a a := ⟨rfl, Or.inl rfl⟩

theorem forall₂_entryRel_refl (es : List (String × FSTree)) :
    List.Forall₂ EntryRel es es := by
  induction es with
  | nil => exact List.Forall₂.nil
  | cons e es ih => exact List.Forall₂.cons (entryRel_refl e) ih

theorem insertEntry_rel {e e' : String × FSTree} (he : EntryRel e e') :
    ∀ {es es' : List (String × FSTree)}, List.Forall₂ EntryRel es es' →
      List.Forall₂ EntryRel (insertEntry e es) (insertEntry e' es') := by
  intro es es' h
  induction h with
  | nil => exact List.Forall₂.cons he List.Forall₂.nil
  | cons hx hrest ih =>
    rename_i x x' xs xs'
    simp only [insertEntry]
    rw [he.1, hx.1]
    by_cases hle : nameLe e'.1 x'.1 = true
    · simp only [hle, if_true]
      exact List.Forall₂.cons he (List.Forall₂.cons hx hrest)
    · simp only [hle, if_false, Bool.false_eq_true]
      exact List.Forall₂.cons hx ih

theorem sortEntries_rel {es es' : List (String × FSTree)}
    (h : List.Forall₂ EntryRel es es') :
    List.Forall₂ EntryRel (sortEntries es) (sortEntries es') := by
  induction h with
  | nil => exact List.Forall₂.nil
  | cons hx hrest ih => exact insertEntry_rel hx ih

theorem setEntry_dirs_rel (es : List (String × FSTree)) (n : String)
    (u v : List (String × FSTree)) :
    List.Forall₂ EntryRel (setEntry es n (.dir u)) (setEntry es n (.dir v)) := by
  induction es with
  | nil =>
    exact List.Forall₂.cons ⟨rfl, Or.inr ⟨⟨u, rfl⟩, ⟨v, rfl⟩⟩⟩ List.Forall₂.nil
  | cons e es ih =>
    obtain ⟨a, t⟩ := e
    by_cases han : a = n
    · simp only [setEntry, han, if_true]
      exact List.Forall₂.cons ⟨rfl, Or.inr ⟨⟨u, rfl⟩, ⟨v, rfl⟩⟩⟩ (forall₂_entryRel_refl es)
    · simp only [setEntry, han, if_false]
      exact List.Forall₂.cons (entryRel_refl _) ih

theorem imageEntries_eq_of_rel {es es' : List (String × FSTree)}
    (h : List.Forall₂ EntryRel es es') : imageEntries es = imageEntries es' := by
  induction h with
  | nil => rfl
  | cons hx hrest ih =>
    rename_i x x' xs xs'
    obtain ⟨n, t⟩ := x
    obtain ⟨n', t'⟩ := x'
    obtain ⟨hn, hor⟩ := hx
    simp only at hn
    subst hn
    rcases hor with ht | ⟨⟨d1, hd1⟩, ⟨d2, hd2⟩⟩
    · simp only at ht
      subst ht
      simp only [imageEntries, List.filterMap_cons] at ih ⊢
      cases isImageEntry (n, t) <;> simp [ih]
    · simp only at hd1 hd2
      subst hd1; subst hd2
      simp only [imageEntries, List.filterMap_cons, isImageEntry] at ih ⊢
      simpa [imageEntries] using ih

theorem mem_namesOf_setEntry_self (es : List (String × FSTree)) (n : String)
    (t : FSTree) : n ∈ namesOf (setEntry es n t) := by
  induction es with
  | nil => simp [setEntry, namesOf]
  | cons e es ih =>
    obtain ⟨a, u⟩ := e
    by_cases han : a = n <;> simp [setEntry, han, namesOf] at ih ⊢
    exact Or.inr ih

theorem mem_namesOf_setEntry_of_mem {es : List (String × FSTree)} {m : String}
    (n : String) (t : FSTree) (h : m ∈ namesOf es) :
    m ∈ namesOf (setEntry es n t) := by
  induction es with
  | nil => simp [namesOf] at h
  | cons e es ih =>
    obtain ⟨a, u⟩ := e
    simp only [namesOf, List.map_cons, List.mem_cons] at h
    by_cases han : a = n
    · subst han
      simp only [setEntry, if_true, namesOf, List.map_cons, List.mem_cons]
      rcases h with h | h
      · exact Or.inl h
      · exact Or.inr (by simpa [namesOf] using h)
    · simp only [setEntry, han, if_false, namesOf, List.map_cons, List.mem_cons]
      rcases h with h | h
      · exact Or.inl h
      · exact Or.inr (by simpa [namesOf] using ih (by simpa [namesOf] using h))

theorem namesOf_setEntry_of_mem {es : List (String × FSTree)} {n : String}
    (t : FSTree) (h : n ∈ namesOf es) :
    namesOf (setEntry es n t) = namesOf es := by
  induction es with
  | nil => simp [namesOf] at h
  | cons e es ih =>
    obtain ⟨a, u⟩ := e
    by_cases han : a = n
    · subst han
      simp [setEntry, namesOf]
    · simp only [namesOf, List.map_cons, List.mem_cons] at h
      rcases h with h | h
      · exact absurd h.symm han
      · have hh := ih (by simpa [namesOf] using h)
        simp only [namesOf] at hh
        simp [setEntry, han, namesOf, hh]

theorem mem_namesOf_applyWrites_of_mem {m : String}
    (ws : List (String × FSTree)) :
    ∀ init, m ∈ namesOf init → m ∈ namesOf (applyWrites init ws) := by
  induction ws with
  | nil => intro init h; exact h
  | cons w ws ih =>
    intro init h
    exact ih (setEntry init w.1 w.2) (mem_namesOf_setEntry_of_mem w.1 w.2 h)

theorem applyWrites_keys_mem (ws : List (String × FSTree)) :
    ∀ init, ∀ w ∈ ws, w.1 ∈ namesOf (applyWrites init ws) := by
  induction ws with
  | nil => intro init w hw; simp at hw
  | cons w' ws ih =>
    intro init w hw
    rcases List.mem_cons.mp hw with hw | hw
    · subst hw
      exact mem_namesOf_applyWrites_of_mem ws _ (mem_namesOf_setEntry_self init w.1 w.2)
    · exact ih (setEntry init w'.1 w'.2) w hw

theorem namesOf_applyWrites_of_sub (ws : List (String × FSTree)) :
    ∀ init, (∀ w ∈ ws, w.1 ∈ namesOf init) →
      namesOf (applyWrites init ws) = namesOf init := by
  induction ws with
  | nil => intro init _; rfl
  | cons w ws ih =>
    intro init h
    have hset : namesOf (setEntry init w.1 w.2) = namesOf init :=
      namesOf_setEntry_of_mem w.2 (h w (List.mem_cons_self w ws))
    have : namesOf (applyWrites (setEntry init w.1 w.2) ws) =
        namesOf (setEntry init w.1 w.2) := by
      refine ih _ fun v hv => ?_
      rw [hset]
      exact h v (List.mem_cons_of_mem _ hv)
    calc namesOf (applyWrites init (w :: ws))
        = namesOf (applyWrites (setEntry init w.1 w.2) ws) := rfl
      _ = namesOf (setEntry init w.1 w.2) := this
      _ = namesOf init := hset

theorem countThumbJpg_eq_names (es : List (String × FSTree)) :
    countThumbJpg es = ((namesOf es).filter fun s => strEndsWith s ".jpg").length := by
  induction es with
  | nil => rfl
  | cons e es ih =>
    by_cases h : strEndsWith e.1 ".jpg" = true <;>
      simp [countThumbJpg, namesOf, List.filter_cons, h] at ih ⊢ <;> omega

theorem countThumbJpg_congr {es es' : List (String × FSTree)}
    (h : namesOf es = namesOf es') : countThumbJpg es = countThumbJpg es' := by
  rw [countThumbJpg_eq_names, countThumbJpg_eq_names, h]

theorem charsLe_total (a : List Char) : ∀ b, charsLe a b = true ∨ charsLe b a = true := by
  induction a with
  | nil => intro b; left; rfl
  | cons c cs ih =>
    intro b
    cases b with
    | nil => right; rfl
    | cons d ds =>
      rcases Nat.lt_trichotomy c.toNat d.toNat with h | h | h
      · left; simp [charsLe, h]
      · have hnd : ¬ c.toNat < d.toNat := by omega
        have hnc : ¬ d.toNat < c.toNat := by omega
        rcases ih ds with hd | hd
        · left; simp [charsLe, hnd, hnc, hd]
        · right; simp [charsLe, hnd, hnc, hd]
      · right; simp [charsLe, h, Nat.lt_asymm h]

theorem nameLe_total (a b : String) : nameLe a b = true ∨ nameLe b a = true :=
  charsLe_total a.toList b.toList

/-- Is a name list in nondecreasing lexicographic order? -/
def sortedN (l : List String) : Prop := List.Chain' (fun a b => nameLe a b = true) l

/-- Insertion into a sorted name list, mirroring `insertEntry`. -/
def insertName (n : String) : List String → List String
  | [] => [n]
  | x :: xs => if nameLe n x then n :: x :: xs else x :: insertName n xs

theorem namesOf_insertEntry (e : String × FSTree) (es : List (String × FSTree)) :
    namesOf (insertEntry e es) = insertName e.1 (namesOf es) := by
  induction es with
  | nil => rfl
  | cons x xs ih =>
    by_cases h : nameLe e.1 x.1 = true <;>
      simp [insertEntry, insertName, namesOf, h] at ih ⊢ <;> simpa [namesOf] using ih

/-- Name-level insertion sort, mirroring `sortEntries`. -/
def sortNames (l : List String) : List String := l.foldr insertName []

theorem namesOf_sortEntries (es : List (String × FSTree)) :
    namesOf (sortEntries es) = sortNames (namesOf es) := by
  induction es with
  | nil => rfl
  | cons e es ih =>
    calc namesOf (insertEntry e (sortEntries es))
        = insertName e.1 (namesOf (sortEntries es)) := namesOf_insertEntry e _
      _ = insertName e.1 (sortNames (namesOf es)) := by rw [ih]

theorem insertName_sorted (n : String) {l : List String} (h : sortedN l) :
    sortedN (insertName n l) := by
  induction l with
  | nil => simp [insertName, sortedN]
  | cons x xs ih =>
    by_cases hle : nameLe n x = true
    · simp only [insertName, hle, if_true]
      exact List.Chain'.cons hle h
    · simp only [insertName, hle, if_false, Bool.false_eq_true]
      have hx : nameLe x n = true := (nameLe_total n x).resolve_left hle
      have hxs : sortedN xs := h.tail
      have hins := ih hxs
      cases xs with
      | nil => exact List.Chain'.cons hx (List.chain'_singleton n)
      | cons y ys =>
        simp only [insertName] at hins ⊢
        by_cases hy : nameLe n y = true
        · simp only [hy, if_true] at hins ⊢
          exact List.Chain'.cons hx hins
        · simp only [hy, if_false, Bool.false_eq_true] at hins ⊢
          have hxy : nameLe x y = true := List.chain'_cons.mp h |>.1
          exact List.Chain'.cons hxy hins

theorem sortNames_sorted (l : List String) : sortedN (sortNames l) := by
  induction l with
  | nil => simp [sortNames, sortedN]
  | cons x xs ih => exact insertName_sorted x ih

theorem sortEntries_sortedN (es : List (String × FSTree)) :
    sortedN (namesOf (sortEntries es)) := by
  rw [namesOf_sortEntries]
  exact sortNames_sorted _

theorem sortEntries_of_sortedN {es : List (String × FSTree)}
    (h : sortedN (namesOf es)) : sortEntries es = es := by
  induction es with
  | nil => rfl
  | cons e es ih =>
    have htail : sortedN (namesOf es) := by
      simpa [namesOf, sortedN] using List.Chain'.tail (by simpa [namesOf, sortedN] using h)
    have : sortEntries (e :: es) = insertEntry e (sortEntries es) := rfl
    rw [this, ih htail]
    cases es with
    | nil => rfl
    | cons x xs =>
      have hx : nameLe e.1 x.1 = true := by
        have := h
        simp only [sortedN, namesOf, List.map_cons, List.chain'_cons] at this
        exact this.1
      simp [insertEntry, hx]

theorem processWaypoint_rerun (w : String) (wes wes2 : List (String × FSTree))
    (log : List String) (h : processWaypoint w wes = .ok (wes2, log)) :
    ∃ wes3, processWaypoint w wes2 = .ok (wes3, log) := by
  obtain ⟨hwes2, hlog, hall⟩ := processWaypoint_ok w wes wes2 log h
  have hwes2' : wes2 = setEntry wes "thumbs" (.dir (waypointResultThumbs wes)) := by
    rw [hwes2, setEntry_setEntry]
  have hts1get : getEntry wes2 "thumbs" = some (.dir (waypointResultThumbs wes)) := by
    rw [hwes2', getEntry_setEntry]
    simp
  have hmk2 : mkThumbsDir wes2 = .ok (waypointResultThumbs wes) := by
    unfold mkThumbsDir
    rw [hts1get]
  have hset2 : setEntry wes2 "thumbs" (.dir (waypointResultThumbs wes)) = wes2 := by
    rw [hwes2', setEntry_setEntry]
  have hrel : List.Forall₂ EntryRel
      (setEntry wes "thumbs" (.dir (thumbs0 wes))) wes2 := by
    rw [hwes2']
    exact setEntry_dirs_rel wes "thumbs" (thumbs0 wes) (waypointResultThumbs wes)
  have himgs : imageEntries (sortEntries wes2) =
      imageEntries (sortEntries (setEntry wes "thumbs" (.dir (thumbs0 wes)))) :=
    (imageEntries_eq_of_rel (sortEntries_rel hrel)).symm
  have hfiles2 : processWaypointFiles (waypointResultThumbs wes) [] (sortEntries wes2) =
      .ok (applyWrites (waypointResultThumbs wes) (waypointWrites wes),
        msgsOf (imageEntries (sortEntries (setEntry wes "thumbs" (.dir (thumbs0 wes)))))) := by
    rw [processWaypointFiles_eq_processImages, himgs, processImages_eq_of_allOk _ _ _ hall]
    rfl
  have hkeys : ∀ v ∈ waypointWrites wes, v.1 ∈ namesOf (waypointResultThumbs wes) :=
    fun v hv => applyWrites_keys_mem (waypointWrites wes) (thumbs0 wes) v hv
  have hcount : countThumbJpg (applyWrites (waypointResultThumbs wes) (waypointWrites wes)) =
      countThumbJpg (waypointResultThumbs wes) :=
    countThumbJpg_congr (namesOf_applyWrites_of_sub _ _ hkeys)
  refine ⟨setEntry wes2 "thumbs"
    (.dir (applyWrites (waypointResultThumbs wes) (waypointWrites wes))), ?_⟩
  unfold processWaypoint
  rw [hmk2]
  simp only [hset2, hfiles2, hcount, hlog]

theorem processWaypointsList_ok_names :
    ∀ (es es2 : List (String × FSTree)) (log : List String),
      processWaypointsList es = .ok (es2, log) → namesOf es2 = namesOf es := by
  intro es
  induction es with
  | nil =>
    intro es2 log h
    simp only [processWaypointsList, Except.ok.injEq, Prod.mk.injEq] at h
    simp [← h.1]
  | cons e rest ih =>
    intro es2 log h
    obtain ⟨n, t⟩ := e
    cases t with
    | file c =>
      simp only [processWaypointsList] at h
      cases hr : processWaypointsList rest with
      | error e' => rw [hr] at h; simp at h
      | ok p =>
        obtain ⟨rs, rlog⟩ := p
        rw [hr] at h
        simp only [Except.ok.injEq, Prod.mk.injEq] at h
        rw [← h.1, namesOf, namesOf, List.map_cons]
        have := ih rs rlog hr
        simp only [namesOf] at this
        simp [this]
    | dir wes =>
      simp only [processWaypointsList] at h
      cases hw : processWaypoint n wes with
      | error e' => rw [hw] at h; simp at h
      | ok q =>
        obtain ⟨wes2, wlog⟩ := q
        rw [hw] at h
        cases hr : processWaypointsList rest with
        | error e' => rw [hr] at h; simp at h
        | ok p =>
          obtain ⟨rs, rlog⟩ := p
          rw [hr] at h
          simp only [Except.ok.injEq, Prod.mk.injEq] at h
          rw [← h.1, namesOf, namesOf, List.map_cons]
          have := ih rs rlog hr
          simp only [namesOf] at this
          simp [this]

theorem processWaypointsList_rerun :
    ∀ (es es2 : List (String × FSTree)) (log : List String),
      processWaypointsList es = .ok (es2, log) →
      ∃ es3, processWaypointsList es2 = .ok (es3, log) := by
  intro es
  induction es with
  | nil =>
    intro es2 log h
    simp only [processWaypointsList, Except.ok.injEq, Prod.mk.injEq] at h
    exact ⟨[], by simp [← h.1, ← h.2, processWaypointsList]⟩
  | cons e rest ih =>
    intro es2 log h
    obtain ⟨n, t⟩ := e
    cases t with
    | file c =>
      simp only [processWaypointsList] at h
      cases hr : processWaypointsList rest with
      | error e' => rw [hr] at h; simp at h
      | ok p =>
        obtain ⟨rs, rlog⟩ := p
        rw [hr] at h
        simp only [Except.ok.injEq, Prod.mk.injEq] at h
        obtain ⟨rs3, hrs3⟩ := ih rs rlog hr
        refine ⟨(n, .file c) :: rs3, ?_⟩
        rw [← h.1, ← h.2]
        simp [processWaypointsList, hrs3]
    | dir wes =>
      simp only [processWaypointsList] at h
      cases hw : processWaypoint n wes with
      | error e' => rw [hw] at h; simp at h
      | ok q =>
        obtain ⟨wes2, wlog⟩ := q
        rw [hw] at h
        cases hr : processWaypointsList rest with
        | error e' => rw [hr] at h; simp at h
        | ok p =>
          obtain ⟨rs, rlog⟩ := p
          rw [hr] at h
          simp only [Except.ok.injEq, Prod.mk.injEq] at h
          obtain ⟨wes3, hwes3⟩ := processWaypoint_rerun n wes wes2 wlog hw
          obtain ⟨rs3, hrs3⟩ := ih rs rlog hr
          refine ⟨(n, .dir wes3) :: rs3, ?_⟩
          rw [← h.1, ← h.2]
          simp [processWaypointsList, hwes3, hrs3]

theorem processTrail_rerun (t : String) (tes tes2 : List (String × FSTree))
    (log : List String) (h : processTrail t tes = .ok (tes2, log)) :
    ∃ tes3, processTrail t tes2 = .ok (tes3, log) := by
  unfold processTrail at h ⊢
  cases hp : getEntry tes "photos" with
  | none =>
    rw [hp] at h
    simp only [Except.ok.injEq, Prod.mk.injEq] at h
    rw [← h.1, ← h.2, hp]
    exact ⟨tes, rfl⟩
  | some u =>
    cases u with
    | file c => rw [hp] at h; simp at h
    | dir pes =>
      rw [hp] at h
      dsimp only at h
      cases hw : processWaypointsList (sortEntries pes) with
      | error e' => rw [hw] at h; simp at h
      | ok p =>
        obtain ⟨pes2, plog⟩ := p
        rw [hw] at h
        simp only [Except.ok.injEq, Prod.mk.injEq] at h
        have hget2 : getEntry tes2 "photos" = some (.dir pes2) := by
          rw [← h.1, getEntry_setEntry]
          simp
        have hnames : namesOf pes2 = namesOf (sortEntries pes) :=
          processWaypointsList_ok_names _ _ _ hw
        have hsorted : sortedN (namesOf pes2) := by
          rw [hnames]
          exact sortEntries_sortedN pes
        have hsort2 : sortEntries pes2 = pes2 := sortEntries_of_sortedN hsorted
        obtain ⟨pes3, hpes3⟩ := processWaypointsList_rerun _ _ _ hw
        refine ⟨setEntry tes2 "photos" (.dir pes3), ?_⟩
        rw [hget2]
        dsimp only
        rw [hsort2, hpes3, ← h.2]

theorem processTrailsList_ok_names :
    ∀ (es es2 : List (String × FSTree)) (log : List String),
      processTrailsList es = .ok (es2, log) → namesOf es2 = namesOf es := by
  intro es
  induction es with
  | nil =>
    intro es2 log h
    simp only [processTrailsList, Except.ok.injEq, Prod.mk.injEq] at h
    simp [← h.1]
  | cons e rest ih =>
    intro es2 log h
    obtain ⟨n, t⟩ := e
    cases t with
    | file c =>
      simp only [processTrailsList] at h
      cases hr : processTrailsList rest with
      | error e' => rw [hr] at h; simp at h
      | ok p =>
        obtain ⟨rs, rlog⟩ := p
        rw [hr] at h
        simp only [Except.ok.injEq, Prod.mk.injEq] at h
        rw [← h.1, namesOf, namesOf, List.map_cons]
        have := ih rs rlog hr
        simp only [namesOf] at this
        simp [this]
    | dir tes =>
      simp only [processTrailsList] at h
      cases hw : processTrail n tes with
      | error e' => rw [hw] at h; simp at h
      | ok q =>
        obtain ⟨tes2, tlog⟩ := q
        rw [hw] at h
        cases hr : processTrailsList rest with
        | error e' => rw [hr] at h; simp at h
        | ok p =>
          obtain ⟨rs, rlog⟩ := p
          rw [hr] at h
          simp only [Except.ok.injEq, Prod.mk.injEq] at h
          rw [← h.1, namesOf, namesOf, List.map_cons]
          have := ih rs rlog hr
          simp only [namesOf] at this
          simp [this]

theorem processTrailsList_rerun :
    ∀ (es es2 : List (String × FSTree)) (log : List String),
      processTrailsList es = .ok (es2, log) →
      ∃ es3, processTrailsList es2 = .ok (es3, log) := by
  intro es
  induction es with
  | nil =>
    intro es2 log h
    simp only [processTrailsList, Except.ok.injEq, Prod.mk.injEq] at h
    exact ⟨[], by simp [← h.1, ← h.2, processTrailsList]⟩
  | cons e rest ih =>
    intro es2 log h
    obtain ⟨n, t⟩ := e
    cases t with
    | file c =>
      simp only [processTrailsList] at h
      cases hr : processTrailsList rest with
      | error e' => rw [hr] at h; simp at h
      | ok p =>
        obtain ⟨rs, rlog⟩ := p
        rw [hr] at h
        simp only [Except.ok.injEq, Prod.mk.injEq] at h
        obtain ⟨rs3, hrs3⟩ := ih rs rlog hr
        refine ⟨(n, .file c) :: rs3, ?_⟩
        rw [← h.1, ← h.2]
        simp [processTrailsList, hrs3]
    | dir tes =>
      simp only [processTrailsList] at h
      cases hw : processTrail n tes with
      | error e' => rw [hw] at h; simp at h
      | ok q =>
        obtain ⟨tes2, tlog⟩ := q
        rw [hw] at h
        cases hr : processTrailsList rest with
        | error e' => rw [hr] at h; simp at h
        | ok p =>
          obtain ⟨rs, rlog⟩ := p
          rw [hr] at h
          simp only [Except.ok.injEq, Prod.mk.injEq] at h
          obtain ⟨tes3, htes3⟩ := processTrail_rerun n tes tes2 tlog hw
          obtain ⟨rs3, hrs3⟩ := ih rs rlog hr
          refine ⟨(n, .dir tes3) :: rs3, ?_⟩
          rw [← h.1, ← h.2]
          simp [processTrailsList, htes3, hrs3]

/-- C9: a second run of the Thumbnail Generator on the tree produced by
a successful first run also succeeds, and it prints the identical log
(in particular the identical per-waypoint thumbnail counts): thumbs
directories are reused and thumbnails overwritten without error. -/
theorem claim_C9_rerun_idempotent (root root1 : List (String × FSTree))
    (log1 : List String) (h : mainRun root = .ok (root1, log1)) :
    ∃ root2, mainRun root1 = .ok (root2, log1) := by
  unfold mainRun at h ⊢
  cases hg : getEntry root "trails" with
  | none =>
    rw [hg] at h
    simp only [Except.ok.injEq, Prod.mk.injEq] at h
    rw [← h.1, ← h.2, hg]
    exact ⟨root, rfl⟩
  | some u =>
    cases u with
    | file c => rw [hg] at h; simp at h
    | dir ts =>
      rw [hg] at h
      dsimp only at h
      cases ht : processTrailsList (sortEntries ts) with
      | error e' => rw [ht] at h; simp at h
      | ok p =>
        obtain ⟨ts2, tlog⟩ := p
        rw [ht] at h
        simp only [Except.ok.injEq, Prod.mk.injEq] at h
        have hget2 : getEntry root1 "trails" = some (.dir ts2) := by
          rw [← h.1, getEntry_setEntry]
          simp
        have hnames : namesOf ts2 = namesOf (sortEntries ts) :=
          processTrailsList_ok_names _ _ _ ht
        have hsorted : sortedN (namesOf ts2) := by
          rw [hnames]
          exact sortEntries_sortedN ts
        have hsort2 : sortEntries ts2 = ts2 := sortEntries_of_sortedN hsorted
        obtain ⟨ts3, hts3⟩ := processTrailsList_rerun _ _ _ ht
        refine ⟨setEntry root1 "trails" (.dir ts3), ?_⟩
        rw [hget2]
        dsimp only
        rw [hsort2, hts3, ← h.2]

/-- A project root with one trail, one waypoint, one landscape photo. -/
def rootC9 : List (String × FSTree) :=
  [("trails", .dir [("t1", .dir [("photos", .dir
    [("w1", .dir [("a.jpg", .file (.image ⟨Mode.RGB, 300, 200⟩))])])])])]

/-- The tree a first run over `rootC9` leaves behind. -/
def rootC9out : List (String × FSTree) :=
  [("trails", .dir [("t1", .dir [("photos", .dir
    [("w1", .dir [("a.jpg", .file (.image ⟨Mode.RGB, 300, 200⟩)),
      ("thumbs", .dir [("a.jpg", .file (.image ⟨Mode.RGB, 160, 160⟩))])])])])])]

/-- The log a run over `rootC9` prints. -/
def logC9 : List String :=
  ["Processing trail: t1", "  a.jpg -> thumbs/a.jpg",
   "Processed waypoint w1: 1 thumbnails", "Done!"]

theorem claim_C9_rerun_idempotent_witness :
    ∃ root2, mainRun rootC9out = .ok (root2, logC9) :=
  claim_C9_rerun_idempotent rootC9 rootC9out logC9 rfl

end FCTrails
